import Mathlib

/-!
Verification of the name-extraction and wordlist-expansion core of the
`names-wordlist` tool.  The Go source is shallowly embedded: strings are
`List Char`, the regex-based splitters are embedded as explicit scanners
over the same character classes, the histogram/threshold logic and the
producer/consumer shutdown protocol are embedded as explicit state passing.
-/

namespace NW

/-- Character class of the regexp escape `\s` as used by the Go `regexp`
package (RE2): tab, newline, form feed, carriage return, space. -/
def isGoSpace (c : Char) : Bool :=
  c == '\t' || c == '\n' || c == '\x0c' || c == '\r' || c == ' '

/-- Character class `[\t\n\f\r \-\.'"ʿ]` of `FirstnameSeperatorRegExp`
(source line 32): whitespace, hyphen, period, apostrophe, double quote and
the combining half-ring transliteration marker. -/
def isFirstnameSep (c : Char) : Bool :=
  isGoSpace c || c == '-' || c == '.' || c == Char.ofNat 39 || c == '"' || c == 'ʿ'

/-- Splits a character list at every character satisfying `p`, keeping empty
tokens, exactly like `regexp.Split` with a single-character class pattern:
the result always has one more token than there are separator characters,
and in particular is never empty. -/
def splitOnClass (p : Char → Bool) : List Char → List (List Char)
  | [] => [[]]
  | c :: rest =>
    if p c then
      [] :: splitOnClass p rest
    else
      match splitOnClass p rest with
      | t :: ts => (c :: t) :: ts
      | [] => [[c]]

/-- Embedding of `FirstnameSeperatorRegExp.Split(s, -1)` (source line 231):
split at every single character of the first-name delimiter class, keeping
empty tokens. -/
def firstnameSeperatorSplit (s : List Char) : List (List Char) :=
  splitOnClass isFirstnameSep s

/-- Drop trailing `\s` whitespace. -/
def dropTrailSpace (s : List Char) : List Char :=
  (s.reverse.dropWhile isGoSpace).reverse

/-- Tokens after the first comma: leading whitespace is always absorbed by
the preceding match, trailing whitespace only when another comma follows. -/
def trimInner : List (List Char) → List (List Char)
  | [] => []
  | [t] => [t.dropWhile isGoSpace]
  | t :: ts => dropTrailSpace (t.dropWhile isGoSpace) :: trimInner ts

/-- Embedding of `NameSeperatorRegExp.Split(s, -1)` with pattern `\s*,\s*`
(source lines 31, 225).  A leftmost match of `\s*,\s*` consists of one comma
together with the maximal whitespace runs immediately before and after it
(`\s` cannot match a comma, so each match contains exactly one comma and the
greedy whitespace stars absorb the adjacent runs).  Splitting on those
matches is therefore: split at every comma, then remove the whitespace the
match absorbed, i.e. trailing whitespace of every token that is followed by
a comma and leading whitespace of every token that is preceded by one. -/
def nameSeperatorSplit (s : List Char) : List (List Char) :=
  match splitOnClass (fun c => c == ',') s with
  | [] => []
  | [t] => [t]
  | t :: ts => dropTrailSpace t :: trimInner ts

/-- Embedding of the `"name"` field handling in `namesWordlist` (source
lines 224-234), the Field Splitter of the spec: split the value on
`NameSeperatorRegExp`; fewer than 2 groups yields no candidate; otherwise
split group 1 on `FirstnameSeperatorRegExp` and, unless that split is empty
(it never is), return its first token verbatim. -/
def split_name_field (raw : List Char) : Option (List Char) :=
  match nameSeperatorSplit raw with
  | _ :: g1 :: _ =>
    match firstnameSeperatorSplit g1 with
    | t :: _ => some t
    | [] => none
  | _ => none

/-- Character class `[\t\n\f\r '"ʿ]` of `TemplateFieldsRegExp` (source
line 30): the filler characters around a field value. -/
def isFiller (c : Char) : Bool :=
  isGoSpace c || c == Char.ofNat 39 || c == '"' || c == 'ʿ'

/-- ASCII letter, the class `[a-z]` under the `(?i:...)` flag of
`TemplateFieldsRegExp`. -/
def isAsciiLetter (c : Char) : Bool :=
  ('a' ≤ c && c ≤ 'z') || ('A' ≤ c && c ≤ 'Z')

/-- The part of `TemplateFieldsRegExp` after the `=` sign:
`[\t\n\f\r '"ʿ]*(.+)[\t\n\f\r '"ʿ]*`, returning the capture of `(.+)`.
The leading filler star is greedy; `.` matches anything but a newline, so
the greedy `(.+)` extends to the end of the line, which forces the trailing
filler star to match the empty string.  When everything after the fillers
is gone or a newline, the engine backtracks the leading star until a
non-newline character is available to start `(.+)`. -/
def templateFieldsValue (rest : List Char) : Option (List Char) :=
  match rest.dropWhile isFiller with
  | c :: r => some ((c :: r).takeWhile (fun d => d ≠ '\n'))
  | [] =>
    match rest.reverse.dropWhile (fun d => d == '\n') with
    | c :: _ => some [c]
    | [] => none

/-- A match of `TemplateFieldsRegExp` anchored at the current position:
greedy `\s*`, the key `([a-z]+)` (case-insensitive), greedy `\s*`, a literal
`=`, then the value part.  (The stars before the key and the `=` never
backtrack: the characters they would give back cannot start a key or be an
`=`.) -/
def templateFieldsMatchAt (s : List Char) : Option (List Char × List Char) :=
  match (s.dropWhile isGoSpace).takeWhile isAsciiLetter,
        ((s.dropWhile isGoSpace).dropWhile isAsciiLetter).dropWhile isGoSpace with
  | [], _ => none
  | key, '=' :: rest => (templateFieldsValue rest).map (fun v => (key, v))
  | _, _ => none

/-- Embedding of `TemplateFieldsRegExp.FindStringSubmatch(sub)` (source
lines 30, 217): the leftmost match wins, so the anchored match is tried at
every start position from the left. -/
def templateFieldsMatch : List Char → Option (List Char × List Char)
  | [] => none
  | c :: rest =>
    match templateFieldsMatchAt (c :: rest) with
    | some r => some r
    | none => templateFieldsMatch rest

/-- Embedding of `unicode.ToUpper` restricted to the ASCII range, the rune
mapping used by `strings.ToUpper` and (for word-initial letters) by
`strings.Title`; characters outside the ASCII letters are kept unchanged in
this model. -/
def upChar (c : Char) : Char :=
  if 'a' ≤ c && c ≤ 'z' then Char.ofNat (c.toNat - 32) else c

/-- Embedding of `unicode.ToLower` restricted to the ASCII range, the rune
mapping used by `strings.ToLower`; characters outside the ASCII letters are
kept unchanged in this model. -/
def downChar (c : Char) : Char :=
  if 'A' ≤ c && c ≤ 'Z' then Char.ofNat (c.toNat + 32) else c

/-- `strings.ToLower` (source line 283), rune by rune. -/
def goToLower (s : List Char) : List Char :=
  s.map downChar

/-- `strings.ToUpper` (source line 284), rune by rune. -/
def goToUpper (s : List Char) : List Char :=
  s.map upChar

/-- `strings.isSeparator`, the word-boundary test of `strings.Title`: in
the ASCII range everything except letters, digits and underscore is a
separator; non-ASCII characters (letters such as `ü`) are not separators in
this model. -/
def isSeparator (c : Char) : Bool :=
  if c.toNat ≤ 0x7f then
    !(('0' ≤ c && c ≤ '9') || ('a' ≤ c && c ≤ 'z') || ('A' ≤ c && c ≤ 'Z') || c == '_')
  else
    false

/-- The mapping loop of `strings.Title`: a rune whose predecessor is a
separator is mapped through `unicode.ToTitle` (which equals upper case on
ASCII letters), every other rune is kept unchanged; `prev` carries the
previous original rune. -/
def goTitleAux (prev : Char) : List Char → List Char
  | [] => []
  | c :: cs => (if isSeparator prev then upChar c else c) :: goTitleAux c cs

/-- `strings.Title` (source line 285): `prev` starts as a space, so the
first rune is always title-cased.  Note that runes after a word-initial one
are left unchanged, not lower-cased. -/
def goTitle (s : List Char) : List Char :=
  goTitleAux ' ' s

/-- The three case forms computed per name in `OutputRoutine` (source lines
282-285), in source order: lower, upper, title. -/
def caseForms (name : List Char) : List (List Char) :=
  [goToLower name, goToUpper name, goTitle name]

/-- Zero-padded decimal rendering of `n` to exactly `w` digits, the value of
Go's `fmt.Sprintf("%0wd", n)` for `n < 10^w` (source lines 266-269 only
format numbers below `10^w` with width `w`). -/
def padNum : Nat → Nat → List Char
  | 0, _ => []
  | w + 1, n => padNum w (n / 10) ++ [Nat.digitChar (n % 10)]

/-- Decimal digit character. -/
def isDigitCh (c : Char) : Bool :=
  '0' ≤ c && c ≤ '9'

/-- The `digitCombs` table of `OutputRoutine` (source lines 261-271): the
empty suffix, then for every width `w = 1..digits` all numbers
`0..10^w - 1` zero-padded to width `w`. -/
def digitCombs (digits : Nat) : List (List Char) :=
  [[]] ++ (List.range digits).flatMap (fun d => (List.range (10 ^ (d + 1))).map (padNum (d + 1)))

/-- The `charCombs` table of `OutputRoutine` (source lines 274-278): the
empty suffix plus each configured special character as a one-character
string. -/
def charCombs (specialChars : List Char) : List (List Char) :=
  [[]] ++ specialChars.map (fun c => [c])

/-- The per-name output of `OutputRoutine` (source lines 281-292), the
Variant Expander of the spec: for each digit suffix, for each special
character suffix, one `WriteString` call emits the lower, upper and title
lines in that order.  The result is the list of emitted lines. -/
def expand (digits : Nat) (specialChars : List Char) (name : List Char) : List (List Char) :=
  let lwr := goToLower name
  let upr := goToUpper name
  let ttl := goTitle name
  (digitCombs digits).flatMap (fun d =>
    (charCombs specialChars).flatMap (fun c =>
      [lwr ++ d ++ c, upr ++ d ++ c, ttl ++ d ++ c]))

/-- Modelled from the spec: the emission order claimed in §4.4, with the
case form as the outermost iteration, then the numeric suffixes, then the
special-character suffixes.  Used only to compare against the order the
code actually produces. -/
def caseOuterExpand (digits : Nat) (specialChars : List Char) (name : List Char) : List (List Char) :=
  (caseForms name).flatMap (fun f =>
    (digitCombs digits).flatMap (fun d =>
      (charCombs specialChars).map (fun c => f ++ d ++ c)))

/-- Modelled from the spec: the title-casing claimed in §4.4 (and in C8),
where the first letter of each whitespace-delimited word is capitalized and
the remainder is lower-cased.  Used only to compare against `goTitle`. -/
def specTitle (s : List Char) : List Char :=
  goTitleAux ' ' (goToLower s)

/-- The empty histogram: Go's map lookup default of `0` (source line 183). -/
def histZero : List Char → Int :=
  fun _ => 0

/-- `firstnameHist[name] += 1` (source line 237). -/
def histBump (h : List Char → Int) (x : List Char) : List Char → Int :=
  fun y => if y = x then h y + 1 else h y

/-- The per-observation result of the threshold check of `namesWordlist`
(source lines 237-242): each observed candidate increments its histogram
count, and the observation signals exactly when the new count equals the
configured threshold `cnt`. -/
def observeFlags (cnt : Int) : (List Char → Int) → List (List Char) → List Bool
  | _, [] => []
  | h, x :: xs => (h x + 1 == cnt) :: observeFlags cnt (histBump h x) xs

/-- The names pushed onto the output channel by `namesWordlist` (source
lines 236-242), in push order: exactly the observations whose increment
makes the stored count equal to `cnt`. -/
def observeRun (cnt : Int) : (List Char → Int) → List (List Char) → List (List Char)
  | _, [] => []
  | h, x :: xs =>
    if h x + 1 = cnt then
      x :: observeRun cnt (histBump h x) xs
    else
      observeRun cnt (histBump h x) xs

/-- All lines the consumer writes for a stream of observed candidates: the
names that cross the threshold, each expanded by `OutputRoutine`. -/
def pipelineOutput (cnt : Int) (digits : Nat) (specialChars : List Char)
    (obs : List (List Char)) : List (List Char) :=
  (observeRun cnt histZero obs).flatMap (expand digits specialChars)

/-- The channel/waitgroup actions the main goroutine of `namesWordlist`
performs after the output goroutine has been started: `ch <- name` pushes
(source line 241), `close(ch)` closes (source line 252), `wg.Wait()` blocks
until the waitgroup counter is zero (source line 253). -/
inductive MainAct where
  | send (s : List Char)
  | closeCh
  | waitWG

/-- Joint state of the two goroutines of `namesWordlist`: the remaining
main-side actions, the channel buffer (capacity 100, source line 170), the
waitgroup counter (`wg.Add(1)` before the goroutine starts, source line
173), the lines written by the consumer, and whether each side has
finished.  Once `mainExited` is set the process is gone and the output
goroutine can make no further progress. -/
structure PipelineConf where
  mainRest : List MainAct
  mainExited : Bool
  doneCalled : Bool
  consExited : Bool
  chanBuf : List (List Char)
  chanClosed : Bool
  wgCount : Int
  written : List (List Char)

/-- One step of `OutputRoutine` (source lines 257-293): its first action is
the `wg.Done()` at the top of the function body (source line 258, not
deferred); afterwards it drains the channel, expanding and writing one name
per step, and exits when the channel is closed and empty.  No step is
possible after the process has exited. -/
def consStep (digits : Nat) (specialChars : List Char) (c : PipelineConf) : PipelineConf :=
  if c.mainExited || c.consExited then c
  else if !c.doneCalled then { c with doneCalled := true, wgCount := c.wgCount - 1 }
  else
    match c.chanBuf with
    | x :: rest => { c with chanBuf := rest, written := c.written ++ expand digits specialChars x }
    | [] => if c.chanClosed then { c with consExited := true } else c

/-- One step of the main goroutine: perform the next action when it is not
blocked (`send` blocks on a full channel, `waitWG` blocks while the counter
is nonzero); with no actions left, `namesWordlist` returns and the process
exits. -/
def mainStep (c : PipelineConf) : PipelineConf :=
  if c.mainExited then c
  else
    match c.mainRest with
    | [] => { c with mainExited := true }
    | MainAct.send s :: rest =>
      if c.chanBuf.length < 100 then { c with chanBuf := c.chanBuf ++ [s], mainRest := rest } else c
    | MainAct.closeCh :: rest => { c with chanClosed := true, mainRest := rest }
    | MainAct.waitWG :: rest => if c.wgCount == 0 then { c with mainRest := rest } else c

/-- Run the pipeline under an explicit interleaving: `true` schedules the
main goroutine, `false` the output goroutine. -/
def pipelineExec (digits : Nat) (specialChars : List Char) (c : PipelineConf) :
    List Bool → PipelineConf
  | [] => c
  | b :: bs =>
    pipelineExec digits specialChars
      (if b then mainStep c else consStep digits specialChars c) bs

/-- Initial state for a run whose producer side pushes the given names and
then shuts down exactly as `namesWordlist` does (source lines 241, 252-253). -/
def pipelineInit (names : List (List Char)) : PipelineConf :=
  { mainRest := names.map MainAct.send ++ [MainAct.closeCh, MainAct.waitWG]
    mainExited := false
    doneCalled := false
    consExited := false
    chanBuf := []
    chanClosed := false
    wgCount := 1
    written := [] }

/-! ### Helper lemmas -/

theorem splitOnClass_ne_nil (p : Char → Bool) (s : List Char) : splitOnClass p s ≠ [] := by
  induction s with
  | nil => exact List.cons_ne_nil _ _
  | cons c rest ih =>
    simp only [splitOnClass]
    split
    · exact List.cons_ne_nil _ _
    · cases h : splitOnClass p rest with
      | nil => exact List.cons_ne_nil _ _
      | cons t ts => exact List.cons_ne_nil _ _

theorem takeWhile_append_cons {p : Char → Bool} {l₁ l₂ : List Char} {d : Char}
    (h1 : ∀ x ∈ l₁, p x) (h2 : p d = false) :
    (l₁ ++ d :: l₂).takeWhile p = l₁ := by
  induction l₁ with
  | nil => simp [List.takeWhile_cons, h2]
  | cons a l ih =>
    have ha : p a = true := h1 a (by simp)
    have ih' := ih (fun x hx => h1 x (by simp [hx]))
    simp [List.takeWhile_cons, ha, ih']

theorem dropWhile_append_cons {p : Char → Bool} {l₁ l₂ : List Char} {d : Char}
    (h1 : ∀ x ∈ l₁, p x) (h2 : p d = false) :
    (l₁ ++ d :: l₂).dropWhile p = d :: l₂ := by
  induction l₁ with
  | nil => simp [List.dropWhile_cons, h2]
  | cons a l ih =>
    have ha : p a = true := h1 a (by simp)
    simp only [List.cons_append, List.dropWhile_cons, ha]
    exact ih (fun x hx => h1 x (by simp [hx]))

theorem dropWhile_cons_of_neg {p : Char → Bool} {l : List Char} {c : Char} (h : p c = false) :
    (c :: l).dropWhile p = c :: l := by
  simp [List.dropWhile_cons, h]

theorem isGoSpace_of_isAsciiLetter {c : Char} (h : isAsciiLetter c = true) : isGoSpace c = false := by
  by_contra hcon
  have hs : isGoSpace c = true := by
    cases hx : isGoSpace c
    · exact absurd hx hcon
    · rfl
  simp only [isGoSpace, Bool.or_eq_true, beq_iff_eq] at hs
  rcases hs with ((((rfl | rfl) | rfl) | rfl) | rfl) <;> simp [isAsciiLetter] at h

/-! ### C5 — the Field Splitter on comma-separated values -/

/-- C5: for every raw field value, fewer than two comma groups yield no
candidate, otherwise the candidate is verbatim the first token of group 1
after splitting on the first-name delimiter class; "Müller, Anna Maria"
yields "Anna" and "Müller" yields nothing. -/
theorem claim_C5 :
    (∀ raw : List Char, (nameSeperatorSplit raw).length < 2 → split_name_field raw = none)
  ∧ (∀ (raw g0 g1 : List Char) (gs : List (List Char)) (t : List Char) (ts : List (List Char)),
      nameSeperatorSplit raw = g0 :: g1 :: gs →
      firstnameSeperatorSplit g1 = t :: ts →
      split_name_field raw = some t)
  ∧ split_name_field ("Müller, Anna Maria".toList) = some ("Anna".toList)
  ∧ split_name_field ("Müller".toList) = none := by
  refine ⟨?_, ?_, by decide, by decide⟩
  · intro raw h
    unfold split_name_field
    cases hs : nameSeperatorSplit raw with
    | nil => rfl
    | cons g0 gs =>
      cases gs with
      | nil => rfl
      | cons g1 gs' =>
        rw [hs] at h
        simp only [List.length_cons] at h
        omega
  · intro raw g0 g1 gs t ts h1 h2
    simp only [split_name_field, h1, h2]

theorem claim_C5_witness :
    split_name_field ("Meier, Hans Peter".toList) = some ("Hans".toList) :=
  claim_C5.2.1 ("Meier, Hans Peter".toList) ("Meier".toList) ("Hans Peter".toList) []
    ("Hans".toList) ["Peter".toList] (by decide) (by decide)

/-! ### C6 — the empty-first-name guard -/

/-- C6, counterexample: for value "Müller,-" the part after the comma
consists of delimiters only, so the split yields no non-consumed token, yet
the Field Splitter produces a candidate — the empty string — contradicting
the claim that no candidate is produced. -/
theorem claim_C6_counterexample :
    split_name_field ("Müller,-".toList) = some []
  ∧ firstnameSeperatorSplit ("-".toList) = [[], []] :=
  ⟨by decide, by decide⟩

/-- C6, amended: splitting on the first-name delimiter class always yields
at least one token (possibly empty), so the zero-token guard never fires
and, whenever there are at least two comma groups, a candidate is always
produced: the first token verbatim, which is the empty string when the part
after the comma is empty or starts with a delimiter. -/
theorem claim_C6_amended :
    (∀ s : List Char, 1 ≤ (firstnameSeperatorSplit s).length)
  ∧ (∀ (raw g0 g1 : List Char) (gs : List (List Char)),
      nameSeperatorSplit raw = g0 :: g1 :: gs →
      split_name_field raw = some ((firstnameSeperatorSplit g1).headD []))
  ∧ split_name_field ("Müller,-Anna".toList) = some [] := by
  refine ⟨?_, ?_, by decide⟩
  · intro s
    cases h : firstnameSeperatorSplit s with
    | nil => exact absurd h (splitOnClass_ne_nil isFirstnameSep s)
    | cons t ts => simp
  · intro raw g0 g1 gs h1
    cases h2 : firstnameSeperatorSplit g1 with
    | nil => exact absurd h2 (splitOnClass_ne_nil isFirstnameSep g1)
    | cons t ts => simp only [split_name_field, h1, h2, List.headD_cons]

theorem claim_C6_witness :
    split_name_field ("Karl,".toList) = some [] := by
  have h := claim_C6_amended.2.1 ("Karl,".toList) ("Karl".toList) [] [] (by decide)
  rw [h]; decide

/-! ### C7 — template field values and filler stripping -/

/-- C7, counterexample: the segment `name=Otto ` parses as key/value, but
the extracted value is `Otto ` — the trailing filler (the space) is *not*
stripped, because the greedy `(.+)` of `TemplateFieldsRegExp` reaches the
end of the line and leaves the trailing filler class empty. -/
theorem claim_C7_counterexample :
    templateFieldsMatch ("name=Otto ".toList) = some ("name".toList, "Otto ".toList)
  ∧ "Otto ".toList ≠ "Otto".toList :=
  ⟨by decide, by decide⟩

/-- C7, amended: for a segment of shape `key=` followed by filler
characters, a value and trailing filler characters, the extracted value has
the fillers stripped from the leading boundary only; interior content and
the trailing fillers are retained verbatim. -/
theorem claim_C7_amended (k f v t : List Char) (c : Char)
    (hk : k ≠ []) (hkl : ∀ x ∈ k, isAsciiLetter x)
    (hf : ∀ x ∈ f, isFiller x)
    (hc1 : isFiller c = false) (hc2 : c ≠ '\n')
    (hv : ∀ x ∈ v, x ≠ '\n') (_ht1 : ∀ x ∈ t, isFiller x) (ht2 : ∀ x ∈ t, x ≠ '\n') :
    templateFieldsMatch (k ++ '=' :: (f ++ c :: (v ++ t))) = some (k, c :: (v ++ t)) := by
  obtain ⟨a, k', rfl⟩ : ∃ a k', k = a :: k' := by
    cases k with
    | nil => exact absurd rfl hk
    | cons a k' => exact ⟨a, k', rfl⟩
  have ha : isAsciiLetter a = true := hkl a (by simp)
  have key_eq : ((a :: k') ++ '=' :: (f ++ c :: (v ++ t))).takeWhile isAsciiLetter = a :: k' :=
    takeWhile_append_cons hkl (by decide)
  have drop_eq : ((a :: k') ++ '=' :: (f ++ c :: (v ++ t))).dropWhile isAsciiLetter
      = '=' :: (f ++ c :: (v ++ t)) :=
    dropWhile_append_cons hkl (by decide)
  have value_eq : templateFieldsValue (f ++ c :: (v ++ t)) = some (c :: (v ++ t)) := by
    have hdf : (f ++ c :: (v ++ t)).dropWhile isFiller = c :: (v ++ t) :=
      dropWhile_append_cons hf hc1
    have htw : (c :: (v ++ t)).takeWhile (fun d => d ≠ '\n') = c :: (v ++ t) := by
      rw [List.takeWhile_eq_self_iff]
      intro x hx
      simp only [List.mem_cons, List.mem_append] at hx
      rcases hx with rfl | hx | hx
      · simpa using hc2
      · simpa using hv x hx
      · simpa using ht2 x hx
    simp only [templateFieldsValue, hdf, htw]
  have hds : ((a :: k') ++ '=' :: (f ++ c :: (v ++ t))).dropWhile isGoSpace
      = (a :: k') ++ '=' :: (f ++ c :: (v ++ t)) := by
    rw [List.cons_append]
    exact dropWhile_cons_of_neg (isGoSpace_of_isAsciiLetter ha)
  have hAt : templateFieldsMatchAt ((a :: k') ++ '=' :: (f ++ c :: (v ++ t)))
      = some (a :: k', c :: (v ++ t)) := by
    unfold templateFieldsMatchAt
    rw [hds, key_eq, drop_eq, dropWhile_cons_of_neg (show isGoSpace '=' = false by decide)]
    show Option.map (fun x => (a :: k', x)) (templateFieldsValue (f ++ c :: (v ++ t)))
      = some (a :: k', c :: (v ++ t))
    rw [value_eq]
    rfl
  rw [List.cons_append] at hAt ⊢
  unfold templateFieldsMatch
  rw [hAt]

theorem claim_C7_witness :
    templateFieldsMatch ("name".toList ++ '=' :: (" ".toList ++ 'O' :: ("tto".toList ++ " ".toList)))
      = some ("name".toList, 'O' :: ("tto".toList ++ " ".toList)) :=
  claim_C7_amended ("name".toList) (" ".toList) ("tto".toList) (" ".toList) 'O'
    (by decide) (by decide) (by decide) (by decide) (by decide) (by decide) (by decide) (by decide)

/-! ### C8 — the three case forms -/

theorem goTitleAux_length (l : List Char) : ∀ prev : Char, (goTitleAux prev l).length = l.length := by
  induction l with
  | nil => intro prev; rfl
  | cons c cs ih =>
    intro prev
    simp only [goTitleAux, List.length_cons, ih]

theorem goTitleAux_getD (l : List Char) :
    ∀ (prev : Char) (i : Nat), i < l.length →
      (goTitleAux prev l).getD i ' '
        = (if isSeparator (if i = 0 then prev else l.getD (i - 1) ' ')
           then upChar (l.getD i ' ') else l.getD i ' ') := by
  induction l with
  | nil => intro prev i h; simp at h
  | cons c cs ih =>
    intro prev i h
    cases i with
    | zero => simp [goTitleAux]
    | succ j =>
      have hj : j < cs.length := by simpa using h
      have := ih c j hj
      simp only [goTitleAux, List.getD_cons_succ, this]
      cases j with
      | zero => simp
      | succ m => simp

/-- C8, counterexample: the title form of the all-uppercase name "AB" is
"AB", not "Ab" — Go's `strings.Title` maps word-initial runes to title case
but leaves the remaining runes unchanged, so the remainder is *not*
lower-cased as the claim states (the spec's own title-casing, lower-case
then capitalize, would give "Ab"). -/
theorem claim_C8_counterexample :
    caseForms ("AB".toList) = ["ab".toList, "AB".toList, "AB".toList]
  ∧ specTitle ("AB".toList) = "Ab".toList
  ∧ goTitle ("AB".toList) ≠ "Ab".toList :=
  ⟨by decide, by decide, by decide⟩

/-- C8, amended: the expansion computes exactly three case forms — all
lower, all upper, and a title form that title-cases exactly the characters
whose predecessor is a word separator (the first character always, since
`prev` starts as a space) and leaves every other character unchanged, so an
all-uppercase name keeps its upper-case remainder. -/
theorem claim_C8_amended (name : List Char) (i : Nat) (h : i < name.length) :
    caseForms name = [goToLower name, goToUpper name, goTitle name]
  ∧ (goTitle name).length = name.length
  ∧ (goTitle name).getD i ' '
      = (if isSeparator (if i = 0 then ' ' else name.getD (i - 1) ' ')
         then upChar (name.getD i ' ') else name.getD i ' ') :=
  ⟨rfl, goTitleAux_length name ' ', goTitleAux_getD name ' ' i h⟩

theorem claim_C8_witness :
    caseForms ("OTTO".toList) = [goToLower ("OTTO".toList), goToUpper ("OTTO".toList), goTitle ("OTTO".toList)]
  ∧ (goTitle ("OTTO".toList)).length = ("OTTO".toList).length
  ∧ (goTitle ("OTTO".toList)).getD 1 ' '
      = (if isSeparator (if 1 = 0 then ' ' else ("OTTO".toList).getD 0 ' ')
         then upChar (("OTTO".toList).getD 1 ' ') else ("OTTO".toList).getD 1 ' ') :=
  claim_C8_amended ("OTTO".toList) 1 (by decide)

/-! ### C3 — emission order of the outer product -/

/-- The literal three lines per `WriteString` call are the map of the
suffix-append over the case-form list. -/
theorem expand_eq_flatMap (digits : Nat) (specialChars name : List Char) :
    expand digits specialChars name
      = (digitCombs digits).flatMap (fun d =>
          (charCombs specialChars).flatMap (fun c =>
            (caseForms name).map (fun f => f ++ d ++ c))) := rfl

/-- C3, counterexample: for name "ab", one digit width 0 and special set
`{!}` the code emits the three case forms consecutively for each suffix
pair — the case form is the *innermost* iteration — whereas the claimed
order (case outermost, then digits, then special characters) would put
"ab!" second; the two orders differ. -/
theorem claim_C3_counterexample :
    expand 0 ("!".toList) ("ab".toList) =
      ["ab".toList, "AB".toList, "Ab".toList, "ab!".toList, "AB!".toList, "Ab!".toList]
  ∧ caseOuterExpand 0 ("!".toList) ("ab".toList) =
      ["ab".toList, "ab!".toList, "AB".toList, "AB!".toList, "Ab".toList, "Ab!".toList]
  ∧ expand 0 ("!".toList) ("ab".toList) ≠ caseOuterExpand 0 ("!".toList) ("ab".toList) :=
  ⟨by decide, by decide, by decide⟩

/-- C3, amended: the expansion emits the full outer product of case form ×
numeric suffix × special suffix in a deterministic order — the numeric
suffix is the outermost iteration, then the special suffix, and the case
form is the innermost — and each emitted string equals
`case_form ++ numeric_suffix ++ special_suffix`. -/
theorem claim_C3_amended (digits : Nat) (specialChars name : List Char) :
    expand digits specialChars name
      = (digitCombs digits).flatMap (fun d =>
          (charCombs specialChars).flatMap (fun c =>
            (caseForms name).map (fun f => f ++ d ++ c)))
  ∧ ∀ s : List Char, s ∈ expand digits specialChars name ↔
      ∃ f ∈ caseForms name, ∃ d ∈ digitCombs digits, ∃ c ∈ charCombs specialChars,
        s = f ++ d ++ c := by
  refine ⟨expand_eq_flatMap digits specialChars name, ?_⟩
  intro s
  rw [expand_eq_flatMap]
  simp only [List.mem_flatMap, List.mem_map]
  constructor
  · rintro ⟨d, hd, c, hc, f, hf, rfl⟩
    exact ⟨f, hf, d, hd, c, hc, rfl⟩
  · rintro ⟨f, hf, d, hd, c, hc, rfl⟩
    exact ⟨d, hd, c, hc, f, hf, rfl⟩

theorem claim_C3_witness :
    expand 1 ("!".toList) ("otto".toList)
      = (digitCombs 1).flatMap (fun d =>
          (charCombs ("!".toList)).flatMap (fun c =>
            (caseForms ("otto".toList)).map (fun f => f ++ d ++ c))) :=
  (claim_C3_amended 1 ("!".toList) ("otto".toList)).1

/-! ### C4 — size of the expansion -/

theorem padNum_length (w : Nat) : ∀ n : Nat, (padNum w n).length = w := by
  induction w with
  | zero => intro n; rfl
  | succ w ih => intro n; simp [padNum, ih]

theorem flatMap_const_length {α : Type} (l : List α) (f : α → List (List Char)) (k : Nat)
    (h : ∀ x ∈ l, (f x).length = k) : (l.flatMap f).length = l.length * k := by
  induction l with
  | nil => simp
  | cons a as ih =>
    simp only [List.flatMap_cons, List.length_append, List.length_cons]
    rw [h a (by simp), ih (fun x hx => h x (by simp [hx]))]
    ring

theorem digitCombs_length (digits : Nat) :
    (digitCombs digits).length = ((List.range (digits + 1)).map (fun k => 10 ^ k)).sum := by
  rw [List.range_succ_eq_map]
  simp only [digitCombs, List.length_append, List.length_cons, List.length_nil,
    List.length_flatMap, List.map_map, List.map_cons, List.sum_cons, Function.comp_def,
    List.length_map, List.length_range, pow_succ, pow_zero]
  omega

theorem expand_length (digits : Nat) (specialChars name : List Char) :
    (expand digits specialChars name).length
      = 3 * ((List.range (digits + 1)).map (fun k => 10 ^ k)).sum * (1 + specialChars.length) := by
  have hinner : ∀ d ∈ digitCombs digits,
      ((charCombs specialChars).flatMap (fun c =>
        (caseForms name).map (fun f => f ++ d ++ c))).length
        = (1 + specialChars.length) * 3 := by
    intro d _
    rw [flatMap_const_length _ _ 3 (fun c _ => by simp [caseForms])]
    simp only [charCombs, List.length_append, List.length_cons, List.length_nil, List.length_map]
  rw [expand_eq_flatMap, flatMap_const_length _ _ ((1 + specialChars.length) * 3) hinner,
    digitCombs_length]
  ring

theorem mem_digitCombs_iff (digits : Nat) (s : List Char) :
    s ∈ digitCombs digits ↔
      s = [] ∨ ∃ w, 1 ≤ w ∧ w ≤ digits ∧ ∃ n, n < 10 ^ w ∧ s = padNum w n := by
  simp only [digitCombs, List.cons_append, List.nil_append, List.mem_cons, List.mem_flatMap,
    List.mem_map, List.mem_range]
  constructor
  · rintro (h | ⟨d, hd, n, hn, rfl⟩)
    · exact Or.inl h
    · exact Or.inr ⟨d + 1, by omega, by omega, n, hn, rfl⟩
  · rintro (h | ⟨w, hw1, hw2, n, hn, rfl⟩)
    · exact Or.inl h
    · obtain ⟨w', rfl⟩ : ∃ w', w = w' + 1 := ⟨w - 1, by omega⟩
      exact Or.inr ⟨w', by omega, n, hn, rfl⟩

/-- C4: the expansion of any name emits `3 × (1 + 10 + ... + 10^D) ×
(1 + number of special characters)` strings, the digit-suffix table being
the empty suffix plus each zero-padded number of every width `1..D`; with
width 2 and one special character that is 111 × 2 = 222 strings per case
form and 666 in total. -/
theorem claim_C4 (digits : Nat) (specialChars name : List Char) :
    (expand digits specialChars name).length
      = 3 * ((List.range (digits + 1)).map (fun k => 10 ^ k)).sum * (1 + specialChars.length)
  ∧ (∀ s : List Char, s ∈ digitCombs digits ↔
      s = [] ∨ ∃ w, 1 ≤ w ∧ w ≤ digits ∧ ∃ n, n < 10 ^ w ∧ s = padNum w n)
  ∧ (digitCombs 2).length * (charCombs ("!".toList)).length = 222
  ∧ (expand 2 ("!".toList) ("ab".toList)).length = 666 := by
  refine ⟨expand_length digits specialChars name, fun s => mem_digitCombs_iff digits s, ?_, ?_⟩
  · rw [digitCombs_length]
    decide
  · rw [expand_length]
    decide

theorem claim_C4_witness :
    (expand 1 ("!$".toList) ("otto".toList)).length
      = 3 * ((List.range 2).map (fun k => 10 ^ k)).sum * (1 + ("!$".toList).length) :=
  (claim_C4 1 ("!$".toList) ("otto".toList)).1

/-! ### C1 — the threshold histogram -/

theorem observeRun_count (cnt : Int) (n : List Char) :
    ∀ (obs : List (List Char)) (h : List Char → Int),
      (List.count n (observeRun cnt h obs) : Int)
        = if h n < cnt ∧ cnt ≤ h n + (List.count n obs : Int) then 1 else 0 := by
  intro obs
  induction obs with
  | nil =>
    intro h
    simp only [observeRun, List.count_nil, Nat.cast_zero, add_zero]
    rw [if_neg]
    rintro ⟨h1, h2⟩
    omega
  | cons x xs ih =>
    intro h
    have hb : histBump h x n = h n + if n = x then 1 else 0 := by
      simp only [histBump]
      split <;> simp
    have hc : (List.count n (x :: xs) : Int) = (List.count n xs : Int) + if n = x then 1 else 0 := by
      rcases eq_or_ne n x with rfl | hne
      · simp [List.count_cons]
      · simp [List.count_cons, hne, Ne.symm hne]
    rw [show observeRun cnt h (x :: xs)
        = if h x + 1 = cnt then x :: observeRun cnt (histBump h x) xs
          else observeRun cnt (histBump h x) xs from rfl]
    rw [hc]
    by_cases hf : h x + 1 = cnt
    · rw [if_pos hf]
      have hcr : (List.count n (x :: observeRun cnt (histBump h x) xs) : Int)
          = (List.count n (observeRun cnt (histBump h x) xs) : Int) + if n = x then 1 else 0 := by
        rcases eq_or_ne n x with rfl | hne
        · simp [List.count_cons]
        · simp [List.count_cons, hne, Ne.symm hne]
      rw [hcr, ih (histBump h x), hb]
      rcases eq_or_ne n x with rfl | hne
      · simp only [if_pos rfl]
        split_ifs <;> omega
      · simp only [if_neg hne, add_zero]
    · rw [if_neg hf, ih (histBump h x), hb]
      rcases eq_or_ne n x with rfl | hne
      · simp only [if_pos rfl]
        split_ifs <;> omega
      · simp only [if_neg hne, add_zero]

theorem observeFlags_getD (cnt : Int) :
    ∀ (obs : List (List Char)) (h : List Char → Int) (i : Nat), i < obs.length →
      (observeFlags cnt h obs).getD i false
        = (h (obs.getD i []) + (List.count (obs.getD i []) (obs.take (i + 1)) : Int) == cnt) := by
  intro obs
  induction obs with
  | nil => intro h i hi; simp at hi
  | cons x xs ih =>
    intro h i hi
    cases i with
    | zero =>
      simp [observeFlags, List.count_cons]
    | succ j =>
      have hj : j < xs.length := by simpa using hi
      simp only [observeFlags, List.getD_cons_succ, List.take_succ_cons]
      rw [ih (histBump h x) j hj]
      have hbb : histBump h x (xs.getD j []) = h (xs.getD j []) + if xs.getD j [] = x then 1 else 0 := by
        simp only [histBump]
        split <;> simp
      have hcc : ∀ (g y : List Char) (l : List (List Char)),
          (List.count g (y :: l) : Int) = (List.count g l : Int) + if g = y then 1 else 0 := by
        intro g y l
        rcases eq_or_ne g y with rfl | hne
        · simp [List.count_cons]
        · simp [List.count_cons, hne, Ne.symm hne]
      rw [hbb, hcc (xs.getD j []) x (xs.take (j + 1))]
      congr 1
      ring

/-- C1: for threshold ≥ 1, over any observation stream each name is pushed
for output exactly once if its total number of occurrences reaches the
threshold and never otherwise; each observation signals exactly when the
count it stores (its occurrences among the observations so far) equals the
threshold; with threshold 2 a name observed three times signals false,
true, false. -/
theorem claim_C1 (cnt : Int) (hc : 1 ≤ cnt) (obs : List (List Char)) (n : List Char) :
    (List.count n (observeRun cnt histZero obs) : Int)
        = (if cnt ≤ (List.count n obs : Int) then 1 else 0)
  ∧ (∀ i : Nat, i < obs.length →
      (observeFlags cnt histZero obs).getD i false
        = ((List.count (obs.getD i []) (obs.take (i + 1)) : Int) == cnt))
  ∧ observeFlags 2 histZero [n, n, n] = [false, true, false] := by
  refine ⟨?_, ?_, ?_⟩
  · rw [observeRun_count cnt n obs histZero]
    simp only [histZero]
    split_ifs <;> first | rfl | omega
  · intro i hi
    rw [observeFlags_getD cnt obs histZero i hi]
    simp [histZero]
  · simp [observeFlags, histBump, histZero]

theorem claim_C1_witness :
    (List.count ("otto".toList) (observeRun 2 histZero ["otto".toList, "otto".toList]) : Int) = 1 := by
  have h := (claim_C1 2 (by decide) ["otto".toList, "otto".toList] ("otto".toList)).1
  rw [h]
  decide

/-! ### C10 — non-positive thresholds -/

theorem observeRun_nonpos (cnt : Int) (hcnt : cnt ≤ 0) :
    ∀ (obs : List (List Char)) (h : List Char → Int), (∀ m, 0 ≤ h m) →
      observeRun cnt h obs = [] := by
  intro obs
  induction obs with
  | nil => intro h _; rfl
  | cons x xs ih =>
    intro h hpos
    have hne : ¬ (h x + 1 = cnt) := by
      have := hpos x
      omega
    have hpos2 : ∀ m, 0 ≤ histBump h x m := by
      intro m
      simp only [histBump]
      split
      · have := hpos m
        omega
      · exact hpos m
    rw [show observeRun cnt h (x :: xs)
        = if h x + 1 = cnt then x :: observeRun cnt (histBump h x) xs
          else observeRun cnt (histBump h x) xs from rfl]
    rw [if_neg hne]
    exact ih (histBump h x) hpos2

/-- C10: with a zero or negative configured threshold the equality check
against the incremented count (always ≥ 1) never succeeds, so no name is
ever pushed and the run writes no output lines; nothing in the core rejects
such a configuration. -/
theorem claim_C10 (cnt : Int) (hcnt : cnt ≤ 0) (digits : Nat) (specialChars : List Char)
    (obs : List (List Char)) :
    observeRun cnt histZero obs = [] ∧ pipelineOutput cnt digits specialChars obs = [] := by
  have h := observeRun_nonpos cnt hcnt obs histZero (fun m => le_refl 0)
  exact ⟨h, by simp [pipelineOutput, h]⟩

theorem claim_C10_witness :
    observeRun 0 histZero ["otto".toList] = []
  ∧ pipelineOutput 0 4 ("!$@_".toList) ["otto".toList] = [] :=
  claim_C10 0 (by decide) 4 ("!$@_".toList) ["otto".toList]

/-! ### C2 — shutdown of the output goroutine -/

/-- C2: because `OutputRoutine` calls `wg.Done()` at its start (source line
258) instead of deferring it to its return, `wg.Wait()` (source line 253)
no longer witnesses consumer completion.  In the legal interleaving below
the consumer runs just its initial `wg.Done()`, the producer then pushes a
name, closes the channel and passes `wg.Wait()` immediately, and the run
completes with the pushed name still sitting in the channel and nothing
ever written — the name is silently dropped. -/
theorem claim_C2 :
    (pipelineExec 4 ("!$@_".toList) (pipelineInit ["otto".toList])
        [false, true, true, true, true]).mainExited = true
  ∧ (pipelineExec 4 ("!$@_".toList) (pipelineInit ["otto".toList])
        [false, true, true, true, true]).chanBuf = ["otto".toList]
  ∧ (pipelineExec 4 ("!$@_".toList) (pipelineInit ["otto".toList])
        [false, true, true, true, true]).written = [] :=
  ⟨rfl, by decide, by decide⟩

/-! ### C9 — duplicate-freedom of a single name's expansion -/

theorem padNum_digits (w : Nat) : ∀ n : Nat, ∀ c ∈ padNum w n, isDigitCh c = true := by
  induction w with
  | zero => intro n c hc; simp [padNum] at hc
  | succ w ih =>
    intro n c hc
    simp only [padNum, List.mem_append, List.mem_singleton] at hc
    rcases hc with hc | rfl
    · exact ih (n / 10) c hc
    · have h10 : n % 10 < 10 := Nat.mod_lt n (by omega)
      have hall : ∀ k : Fin 10, isDigitCh (Nat.digitChar k.val) = true := by decide
      exact hall ⟨n % 10, h10⟩

theorem digitChar_inj_lt10 :
    ∀ a b : Fin 10, Nat.digitChar a.val = Nat.digitChar b.val → a = b := by decide

theorem padNum_inj (w : Nat) :
    ∀ n m : Nat, n < 10 ^ w → m < 10 ^ w → padNum w n = padNum w m → n = m := by
  induction w with
  | zero =>
    intro n m hn hm _
    simp only [pow_zero] at hn hm
    omega
  | succ w ih =>
    intro n m hn hm heq
    simp only [padNum] at heq
    have hlen : (padNum w (n / 10)).length = (padNum w (m / 10)).length := by
      rw [padNum_length, padNum_length]
    obtain ⟨h1, h2⟩ := List.append_inj heq hlen
    have hd : Nat.digitChar (n % 10) = Nat.digitChar (m % 10) := by simpa using h2
    have hps : (10 : Nat) ^ (w + 1) = 10 ^ w * 10 := pow_succ 10 w
    have hn10 : n / 10 < 10 ^ w := by omega
    have hm10 : m / 10 < 10 ^ w := by omega
    have hdiv := ih (n / 10) (m / 10) hn10 hm10 h1
    have hmod : n % 10 = m % 10 := by
      have hfin := digitChar_inj_lt10 ⟨n % 10, by omega⟩ ⟨m % 10, by omega⟩ hd
      exact congrArg Fin.val hfin
    omega

theorem digitCombs_nodup (digits : Nat) : (digitCombs digits).Nodup := by
  unfold digitCombs
  rw [List.nodup_append]
  refine ⟨by simp, ?_, ?_⟩
  · rw [List.nodup_flatMap]
    constructor
    · intro d _
      refine List.Nodup.map_on ?_ (List.nodup_range _)
      intro a ha b hb hab
      exact padNum_inj (d + 1) a b (by simpa using ha) (by simpa using hb) hab
    · refine (List.pairwise_lt_range _).imp_of_mem ?_
      intro a b _ _ hab x hxa hxb
      simp only [List.mem_map, List.mem_range] at hxa hxb
      obtain ⟨na, _, rfl⟩ := hxa
      obtain ⟨nb, _, hxe⟩ := hxb
      have hle := congrArg List.length hxe
      rw [padNum_length, padNum_length] at hle
      omega
  · intro x hx hx2
    simp only [List.mem_singleton] at hx
    subst hx
    simp only [List.mem_flatMap, List.mem_map, List.mem_range] at hx2
    obtain ⟨d, _, n, _, he⟩ := hx2
    have hle := congrArg List.length he
    rw [padNum_length] at hle
    simp at hle

theorem charCombs_nodup (specialChars : List Char) (h : specialChars.Nodup) :
    (charCombs specialChars).Nodup := by
  unfold charCombs
  rw [List.nodup_append]
  refine ⟨by simp, ?_, ?_⟩
  · refine List.Nodup.map_on ?_ h
    intro a _ b _ hab
    simpa using hab
  · intro x hx hx2
    simp only [List.mem_singleton] at hx
    subst hx
    simp only [List.mem_map] at hx2
    obtain ⟨a, _, he⟩ := hx2
    simp at he

theorem mem_charCombs (specialChars : List Char) (c : List Char)
    (h : c ∈ charCombs specialChars) : c = [] ∨ ∃ a ∈ specialChars, c = [a] := by
  simp only [charCombs, List.cons_append, List.nil_append, List.mem_cons, List.mem_map] at h
  rcases h with rfl | ⟨a, ha, rfl⟩
  · exact Or.inl rfl
  · exact Or.inr ⟨a, ha, rfl⟩

theorem mem_digitCombs_digits (digits : Nat) (d : List Char) (h : d ∈ digitCombs digits) :
    ∀ c ∈ d, isDigitCh c = true := by
  rcases (mem_digitCombs_iff digits d).1 h with rfl | ⟨w, _, _, n, _, rfl⟩
  · intro c hc; simp at hc
  · exact padNum_digits w n

theorem caseForms_length (name f : List Char) (h : f ∈ caseForms name) :
    f.length = name.length := by
  simp only [caseForms, List.mem_cons, List.not_mem_nil, or_false] at h
  rcases h with rfl | rfl | rfl
  · simp [goToLower]
  · simp [goToUpper]
  · exact goTitleAux_length name ' '

theorem suffix_inj (digits : Nat) (specialChars : List Char)
    (hs : ∀ a ∈ specialChars, isDigitCh a = false)
    (d₁ d₂ c₁ c₂ : List Char)
    (hd₁ : d₁ ∈ digitCombs digits) (hd₂ : d₂ ∈ digitCombs digits)
    (hc₁ : c₁ ∈ charCombs specialChars) (hc₂ : c₂ ∈ charCombs specialChars)
    (he : d₁ ++ c₁ = d₂ ++ c₂) : d₁ = d₂ ∧ c₁ = c₂ := by
  rcases mem_charCombs _ _ hc₁ with rfl | ⟨a₁, ha₁, rfl⟩
  · rcases mem_charCombs _ _ hc₂ with rfl | ⟨a₂, ha₂, rfl⟩
    · rw [List.append_nil, List.append_nil] at he
      exact ⟨he, rfl⟩
    · exfalso
      rw [List.append_nil] at he
      have hmem : a₂ ∈ d₁ := by rw [he]; simp
      have hdig := mem_digitCombs_digits digits d₁ hd₁ a₂ hmem
      rw [hs a₂ ha₂] at hdig
      exact Bool.false_ne_true hdig
  · rcases mem_charCombs _ _ hc₂ with rfl | ⟨a₂, ha₂, rfl⟩
    · exfalso
      rw [List.append_nil] at he
      have hmem : a₁ ∈ d₂ := by rw [← he]; simp
      have hdig := mem_digitCombs_digits digits d₂ hd₂ a₁ hmem
      rw [hs a₁ ha₁] at hdig
      exact Bool.false_ne_true hdig
    · have hlen : d₁.length = d₂.length := by
        have hle := congrArg List.length he
        simp only [List.length_append, List.length_singleton] at hle
        omega
      exact List.append_inj he hlen

theorem emit_inj (digits : Nat) (specialChars name : List Char)
    (hs : ∀ a ∈ specialChars, isDigitCh a = false)
    {f₁ f₂ d₁ d₂ c₁ c₂ : List Char}
    (hf₁ : f₁ ∈ caseForms name) (hf₂ : f₂ ∈ caseForms name)
    (hd₁ : d₁ ∈ digitCombs digits) (hd₂ : d₂ ∈ digitCombs digits)
    (hc₁ : c₁ ∈ charCombs specialChars) (hc₂ : c₂ ∈ charCombs specialChars)
    (he : f₁ ++ d₁ ++ c₁ = f₂ ++ d₂ ++ c₂) : f₁ = f₂ ∧ d₁ = d₂ ∧ c₁ = c₂ := by
  rw [List.append_assoc, List.append_assoc] at he
  have hlen : f₁.length = f₂.length := by
    rw [caseForms_length name f₁ hf₁, caseForms_length name f₂ hf₂]
  obtain ⟨h1, h2⟩ := List.append_inj he hlen
  obtain ⟨h3, h4⟩ := suffix_inj digits specialChars hs d₁ d₂ c₁ c₂ hd₁ hd₂ hc₁ hc₂ h2
  exact ⟨h1, h3, h4⟩

/-- C9, counterexample: the expansion of the single-letter name "a" (digit
width 0, no special characters) is `a`, `A`, `A` — the upper-case and
title-case forms coincide, so a single name's variant generation is *not*
inherently duplicate-free for every name and configuration. -/
theorem claim_C9_counterexample :
    expand 0 [] ("a".toList) = [['a'], ['A'], ['A']]
  ∧ ¬ (expand 0 [] ("a".toList)).Nodup :=
  ⟨by decide, by decide⟩

/-- C9, amended: a single name's expansion is duplicate-free whenever the
three case forms of the name are pairwise distinct and the configured
special characters are distinct and are not decimal digits.  (All three
restrictions are forced: name "a" makes upper and title coincide, a
duplicated special character duplicates suffixes, and a digit special
character makes e.g. digit suffix `00` collide with digit suffix `0`
followed by special character `0`.) -/
theorem claim_C9_amended (digits : Nat) (specialChars name : List Char)
    (h1 : (caseForms name).Nodup) (h2 : specialChars.Nodup)
    (h3 : ∀ a ∈ specialChars, isDigitCh a = false) :
    (expand digits specialChars name).Nodup := by
  rw [expand_eq_flatMap, List.nodup_flatMap]
  constructor
  · intro d hd
    rw [List.nodup_flatMap]
    constructor
    · intro c hc
      refine List.Nodup.map_on ?_ h1
      intro x hx y hy hxy
      exact (emit_inj digits specialChars name h3 hx hy hd hd hc hc hxy).1
    · refine (charCombs_nodup specialChars h2).imp_of_mem ?_
      intro c₁ c₂ hm₁ hm₂ hne x hx₁ hx₂
      simp only [List.mem_map] at hx₁ hx₂
      obtain ⟨fa, hfa, rfl⟩ := hx₁
      obtain ⟨fb, hfb, hfe⟩ := hx₂
      exact hne ((emit_inj digits specialChars name h3 hfb hfa hd hd hm₂ hm₁ hfe).2.2).symm
  · refine (digitCombs_nodup digits).imp_of_mem ?_
    intro d₁ d₂ hm₁ hm₂ hne x hx₁ hx₂
    simp only [List.mem_flatMap, List.mem_map] at hx₁ hx₂
    obtain ⟨c₁, hc₁, fa, hfa, rfl⟩ := hx₁
    obtain ⟨c₂, hc₂, fb, hfb, hfe⟩ := hx₂
    exact hne ((emit_inj digits specialChars name h3 hfb hfa hm₂ hm₁ hc₂ hc₁ hfe).2.1).symm

theorem claim_C9_witness : (expand 1 ("!".toList) ("otto".toList)).Nodup :=
  claim_C9_amended 1 ("!".toList) ("otto".toList) (by decide) (by decide) (by decide)

end NW
